import Mathlib

/-!
Shallow embedding of the `spec` package of dElCIoGio/mongox (filters,
updates, aggregation pipelines) and proofs about its compile operations.

`bson.M` (Go's `map[string]interface{}`) is modelled as an association
list; `mset` mirrors a Go map write `m[k] = v` (replace the binding of
an existing key, append a fresh key), `mget` mirrors `v, ok := m[k]`.
Go maps never hold duplicate keys, so on the lists that model them the
first binding of a key is the only one.
-/

namespace Mongox

/-- A BSON-like value: the payloads that flow through the compiler. -/
inductive BVal where
  | s : String → BVal
  | i : Int → BVal
  | b : Bool → BVal
  | doc : List (String × BVal) → BVal
  | arr : List BVal → BVal

/-- The model of Go's `bson.M`. -/
abbrev BsonM := List (String × BVal)

/-- Go map read `v, ok := m[k]`: the binding of `k`, if any. -/
def mget {α : Type} : List (String × α) → String → Option α
  | [], _ => none
  | (k, v) :: t, key => if k = key then some v else mget t key

/-- Go map write `m[k] = v`: replace the binding of `k` if present,
append `(k, v)` otherwise. -/
def mset {α : Type} : List (String × α) → String → α → List (String × α)
  | [], k, v => [(k, v)]
  | (k0, v0) :: t, k, v =>
      if k0 = k then (k, v) :: t else (k0, v0) :: mset t k v

/-- The Go loop `for f, val := range nm { em[f] = val }`. -/
def mergeFields {α : Type} (em nm : List (String × α)) : List (String × α) :=
  nm.foldl (fun e p => mset e p.1 p.2) em

@[simp] theorem mget_mset {α : Type} (m : List (String × α)) (k : String)
    (v : α) (key : String) :
    mget (mset m k v) key = if key = k then some v else mget m key := by
  induction m with
  | nil =>
    by_cases h : key = k
    · subst h; simp [mset, mget]
    · simp [mset, mget, h, Ne.symm h]
  | cons hd tl ih =>
    cases hd with
    | mk k0 v0 =>
      by_cases h0 : k0 = k
      · subst h0
        by_cases h : key = k0
        · subst h; simp [mset, mget]
        · simp [mset, mget, h, Ne.symm h]
      · rw [mset, if_neg h0]
        by_cases h : key = k0
        · subst h; simp [mget, h0]
        · simp [mget, Ne.symm h, ih, h]

theorem mget_eq_none_of_not_mem {α : Type} (m : List (String × α))
    (key : String) (h : key ∉ m.map Prod.fst) : mget m key = none := by
  induction m with
  | nil => rfl
  | cons hd tl ih =>
    simp only [List.map_cons, List.mem_cons] at h
    push_neg at h
    rw [mget, if_neg (fun he => h.1 he.symm)]
    exact ih h.2

/-- Copying the entries of `nm` into `em` with Go-map writes: a key of
`nm` ends with `nm`'s value (the later write wins), any other key keeps
`em`'s value. -/
theorem mget_mergeFields {α : Type} (em nm : List (String × α)) (key : String)
    (h : (nm.map Prod.fst).Nodup) :
    mget (mergeFields em nm) key =
      match mget nm key with
      | some v => some v
      | none => mget em key := by
  induction nm generalizing em with
  | nil => simp [mergeFields, mget]
  | cons hd tl ih =>
    cases hd with
    | mk f v =>
      simp only [List.map_cons, List.nodup_cons] at h
      have step : mergeFields em ((f, v) :: tl) = mergeFields (mset em f v) tl := rfl
      rw [step, ih (mset em f v) h.2]
      by_cases hk : key = f
      · subst hk
        rw [mget_eq_none_of_not_mem tl key h.1]
        simp [mget]
      · rw [mget, if_neg (fun he => hk he.symm)]
        cases hval : mget tl key with
        | some w => simp
        | none => simp [hk]

/-- Every entry of `mset m k v` is an entry of `m` or is `(k, v)`. -/
theorem mem_mset {α : Type} (m : List (String × α)) (k : String) (v : α)
    (p : String × α) (hp : p ∈ mset m k v) : p ∈ m ∨ p = (k, v) := by
  induction m with
  | nil => simp [mset] at hp; simp [hp]
  | cons hd tl ih =>
    cases hd with
    | mk k0 v0 =>
      rw [mset] at hp
      by_cases h0 : k0 = k
      · rw [if_pos h0] at hp
        rcases List.mem_cons.mp hp with h | h
        · right; exact h
        · left; exact List.mem_cons_of_mem _ h
      · rw [if_neg h0] at hp
        rcases List.mem_cons.mp hp with h | h
        · left; exact h ▸ List.mem_cons_self _ _
        · rcases ih h with h' | h'
          · left; exact List.mem_cons_of_mem _ h'
          · right; exact h'

/-!
Filters (src/spec/spec.go, src/spec/logical.go)

Go's `Filter` is a nilable interface; a possibly-nil filter is
`Option Filter`. `andFilter`/`orFilter` hold `[]Filter` whose elements
are themselves nilable, hence `List (Option Filter)`. `notFilter.filter`
is a nilable `Filter`; compiling a `notFilter` with a nil inner filter
would dereference nil in Go, which the compile function models as
`none` (a panic).
-/

inductive Filter where
  | eqF : String → BVal → Filter
  | opF : String → String → BVal → Filter
  | regexF : String → String → String → Filter
  | elemMatchF : String → Option Filter → Filter
  | andF : List (Option Filter) → Filter
  | orF : List (Option Filter) → Filter
  | notF : Option Filter → Filter

def Filter.isAnd : Filter → Bool
  | .andF _ => true
  | _ => false

def Filter.isOr : Filter → Bool
  | .orF _ => true
  | _ => false

mutual

/-- Compilation `ToMongo` of every filter variant (`eqFilter.ToMongo`,
`opFilter.ToMongo`, `regexFilter.ToMongo`, `elemMatchFilter.ToMongo`,
`andFilter.ToMongo`, `orFilter.ToMongo`, `notFilter.ToMongo`).
`none` models a Go panic (nil dereference in `notFilter.ToMongo`). -/
def Filter.ToMongo : Filter → Option BsonM
  | .eqF field value => some [(field, value)]
  | .opF field op value => some [(field, .doc [(op, value)])]
  | .regexF field pattern options =>
      if options = "" then some [(field, .doc [("$regex", .s pattern)])]
      else some [(field, .doc [("$regex", .s pattern), ("$options", .s options)])]
  | .elemMatchF field none => some [(field, .doc [("$elemMatch", .doc [])])]
  | .elemMatchF field (some f) =>
      (f.ToMongo).map (fun m => [(field, .doc [("$elemMatch", .doc m)])])
  | .andF l =>
      (compileParts l).map (fun parts =>
        match parts with
        | [p] => p
        | ps => [("$and", .arr (ps.map .doc))])
  | .orF l =>
      (compileParts l).map (fun parts =>
        match parts with
        | [p] => p
        | ps => [("$or", .arr (ps.map .doc))])
  | .notF none => none
  | .notF (some f) =>
      (f.ToMongo).map (fun m => [("$nor", .arr [.doc m])])

/-- The shared loop of `andFilter.ToMongo`/`orFilter.ToMongo`: skip nil
children, compile the rest in order. -/
def compileParts : List (Option Filter) → Option (List BsonM)
  | [] => some []
  | none :: rest => compileParts rest
  | some f :: rest =>
      (f.ToMongo).bind (fun m => (compileParts rest).map (fun ps => m :: ps))

end

/-- One pass of the flattening loop body in `And`/`Or`: what a single
argument contributes to `flat`. `sameKind` extracts the child list when
the argument is a container of the flattened kind. -/
def flat1 (sameKind : Filter → Option (List (Option Filter)))
    (f : Option Filter) : List (Option Filter) :=
  match f with
  | none => []
  | some g =>
      match sameKind g with
      | some l => l
      | none => [some g]

def Filter.asAnd : Filter → Option (List (Option Filter))
  | .andF l => some l
  | _ => none

def Filter.asOr : Filter → Option (List (Option Filter))
  | .orF l => some l
  | _ => none

/-- The `flat` list built by the loop in `And` (resp. `Or`). -/
def flatten (sameKind : Filter → Option (List (Option Filter)))
    (filters : List (Option Filter)) : List (Option Filter) :=
  filters.flatMap (flat1 sameKind)

/-- The trailing `if` chain of `And`/`Or`: empty → nil, singleton →
that element, otherwise wrap. -/
def build (wrap : List (Option Filter) → Filter)
    (flat : List (Option Filter)) : Option Filter :=
  match flat with
  | [] => none
  | [f] => f
  | l => some (wrap l)

/-- Constructor `And` (src/spec/logical.go): drop nils, splice nested `andFilter`
children, collapse empty/singleton results. -/
def And (filters : List (Option Filter)) : Option Filter :=
  build Filter.andF (flatten Filter.asAnd filters)

/-- Constructor `Or` (src/spec/logical.go): structural mirror of `And`. -/
def Or (filters : List (Option Filter)) : Option Filter :=
  build Filter.orF (flatten Filter.asOr filters)

/-- Constructor `Not` (src/spec/logical.go): nil in, nil out, else wrap. -/
def Not (filter : Option Filter) : Option Filter :=
  match filter with
  | none => none
  | some f => some (.notF (some f))

-- Leaf constructors (src/spec/spec.go).

def Eq (field : String) (value : BVal) : Filter := .eqF field value
def Ne (field : String) (value : BVal) : Filter := .opF field "$ne" value
def Gt (field : String) (value : BVal) : Filter := .opF field "$gt" value
def Gte (field : String) (value : BVal) : Filter := .opF field "$gte" value
def Lt (field : String) (value : BVal) : Filter := .opF field "$lt" value
def Lte (field : String) (value : BVal) : Filter := .opF field "$lte" value
def In (field : String) (values : BVal) : Filter := .opF field "$in" values
def NotIn (field : String) (values : BVal) : Filter := .opF field "$nin" values
def Nin (field : String) (values : BVal) : Filter := NotIn field values
def Exists (field : String) (exists_ : Bool) : Filter := .opF field "$exists" (.b exists_)
def All (field : String) (values : BVal) : Filter := .opF field "$all" values
def Size (field : String) (size : Int) : Filter := .opF field "$size" (.i size)

def Regex (field pattern : String) (options : List String) : Filter :=
  .regexF field pattern (match options with | [] => "" | o :: _ => o)

def ElemMatch (field : String) (filter : Option Filter) : Filter :=
  .elemMatchF field filter

def Between (field : String) (min max : BVal) : Option Filter :=
  And [some (Gte field min), some (Lte field max)]

mutual

/-- The normalization invariant maintained by the public filter
constructors: an `And`/`Or` container holds at least two children, none
nil, none a container of the same kind (and all recursively
normalized); a `Not` container never holds a nil inner filter. -/
def normB : Filter → Bool
  | .eqF _ _ => true
  | .opF _ _ _ => true
  | .regexF _ _ _ => true
  | .elemMatchF _ none => true
  | .elemMatchF _ (some g) => normB g
  | .andF l => decide (2 ≤ l.length) && allNormNoAnd l
  | .orF l => decide (2 ≤ l.length) && allNormNoOr l
  | .notF none => false
  | .notF (some g) => normB g

def allNormNoAnd : List (Option Filter) → Bool
  | [] => true
  | none :: _ => false
  | some g :: t => !g.isAnd && normB g && allNormNoAnd t

def allNormNoOr : List (Option Filter) → Bool
  | [] => true
  | none :: _ => false
  | some g :: t => !g.isOr && normB g && allNormNoOr t

end

/-- Normalization for a nilable filter: nil or normalized. -/
def onorm (f : Option Filter) : Bool :=
  match f with
  | none => true
  | some g => normB g

/-!
Updates (src/spec/update.go)

Go's `Update` is a nilable interface; `Combine` drops nil arguments
before storing them, so `combinedUpdate.updates` only ever holds
non-nil updates and is modelled as `List Update`.
-/

inductive Update where
  | setU : String → BVal → Update
  | incU : String → BVal → Update
  | pushU : String → BVal → Update
  | pullU : String → BVal → Update
  | unsetU : String → Update
  | setFieldsU : BsonM → Update
  | addToSetU : String → BVal → Update
  | popU : String → Int → Update
  | mulU : String → BVal → Update
  | minU : String → BVal → Update
  | maxU : String → BVal → Update
  | renameU : String → String → Update
  | combinedU : List Update → Update

/-- The type assertion `x.(bson.M)`: the payload of a `doc`, if the
value is one. -/
def asDoc : BVal → Option BsonM
  | .doc d => some d
  | _ => none

/-- The body of the merge loop in `combinedUpdate.ToBsonUpdate` for one
entry `(k, v)` of a child's compiled map: if `result[k]` exists and
both sides are `bson.M`, merge field-wise into the existing map,
otherwise `result[k] = v`. -/
def addEntry (res : BsonM) (k : String) (v : BVal) : BsonM :=
  match mget res k with
  | none => mset res k v
  | some ex =>
    match asDoc ex with
    | none => mset res k v
    | some em =>
      match asDoc v with
      | none => mset res k v
      | some nm => mset res k (.doc (mergeFields em nm))

/-- Folding one child's compiled map into `result`. -/
def mergeMapInto (res : BsonM) (child : BsonM) : BsonM :=
  child.foldl (fun r p => addEntry r p.1 p.2) res

mutual

/-- Compilation `ToBsonUpdate` of every update variant. -/
def Update.ToBsonUpdate : Update → BsonM
  | .setU field value => [("$set", .doc [(field, value)])]
  | .incU field value => [("$inc", .doc [(field, value)])]
  | .pushU field value => [("$push", .doc [(field, value)])]
  | .pullU field value => [("$pull", .doc [(field, value)])]
  | .unsetU field => [("$unset", .doc [(field, .s "")])]
  | .setFieldsU fields => [("$set", .doc fields)]
  | .addToSetU field value => [("$addToSet", .doc [(field, value)])]
  | .popU field position => [("$pop", .doc [(field, .i position)])]
  | .mulU field value => [("$mul", .doc [(field, value)])]
  | .minU field value => [("$min", .doc [(field, value)])]
  | .maxU field value => [("$max", .doc [(field, value)])]
  | .renameU oldField newField => [("$rename", .doc [(oldField, .s newField)])]
  | .combinedU updates => combineLoop updates []

/-- The outer loop of `combinedUpdate.ToBsonUpdate`. -/
def combineLoop : List Update → BsonM → BsonM
  | [], res => res
  | u :: rest, res => combineLoop rest (mergeMapInto res u.ToBsonUpdate)

end

-- Update constructors (src/spec/update.go).

def Set (field : String) (value : BVal) : Update := .setU field value
def Inc (field : String) (value : BVal) : Update := .incU field value
def Push (field : String) (value : BVal) : Update := .pushU field value
def Pull (field : String) (value : BVal) : Update := .pullU field value
def Unset (field : String) : Update := .unsetU field
def SetFields (fields : BsonM) : Update := .setFieldsU fields
def AddToSet (field : String) (value : BVal) : Update := .addToSetU field value
def PopFirst (field : String) : Update := .popU field (-1)
def PopLast (field : String) : Update := .popU field 1
def Mul (field : String) (value : BVal) : Update := .mulU field value
def Min (field : String) (value : BVal) : Update := .minU field value
def Max (field : String) (value : BVal) : Update := .maxU field value
def Rename (oldField newField : String) : Update := .renameU oldField newField

/-- Constructor `Combine` (src/spec/update.go): drop nils; zero left → nil, one
left → that update unchanged, else wrap. -/
def Combine (updates : List (Option Update)) : Option Update :=
  match updates.filterMap id with
  | [] => none
  | [u] => some u
  | nonNil => some (.combinedU nonNil)

/-!
Pipeline builder (src/spec/pipeline.go)

The builder is a single-owner mutable slice of stages; state passing
models the in-place appends. `Match` calls `filter.ToMongo()`, whose
possible panic (nil inner filter of a handcrafted `notFilter`)
propagates as `none`.
-/

structure Pipeline where
  stages : List BsonM

def NewPipeline : Pipeline := ⟨[]⟩

/-- Compilation `ToPipeline` returns the stage list (Go returns the internal slice
itself; the value it denotes is this list). -/
def Pipeline.ToPipeline (p : Pipeline) : List BsonM := p.stages

def Pipeline.Match (p : Pipeline) (filter : Option Filter) : Option Pipeline :=
  match filter with
  | none => some p
  | some f => (f.ToMongo).map (fun m => ⟨p.stages ++ [[("$match", .doc m)]]⟩)

def Pipeline.MatchRaw (p : Pipeline) (filter : Option BsonM) : Pipeline :=
  match filter with
  | none => p
  | some m => ⟨p.stages ++ [[("$match", .doc m)]]⟩

def Pipeline.Project (p : Pipeline) (projection : BsonM) : Pipeline :=
  ⟨p.stages ++ [[("$project", .doc projection)]]⟩

def Pipeline.Group (p : Pipeline) (groupSpec : BsonM) : Pipeline :=
  ⟨p.stages ++ [[("$group", .doc groupSpec)]]⟩

/-- Stage `GroupBy`: start from the one-entry id spec and copy every accumulator
entry into it, then append one `$group` stage. -/
def Pipeline.GroupBy (p : Pipeline) (idExpr : BVal) (accumulators : BsonM) :
    Pipeline :=
  ⟨p.stages ++ [[("$group", .doc (mergeFields [("_id", idExpr)] accumulators))]]⟩

def Pipeline.Sort (p : Pipeline) (sort : BVal) : Pipeline :=
  ⟨p.stages ++ [[("$sort", sort)]]⟩

def Pipeline.SortBy (p : Pipeline) (field : String) (order : Int) : Pipeline :=
  ⟨p.stages ++ [[("$sort", .doc [(field, .i order)])]]⟩

def Pipeline.Limit (p : Pipeline) (n : Int) : Pipeline :=
  ⟨p.stages ++ [[("$limit", .i n)]]⟩

def Pipeline.Skip (p : Pipeline) (n : Int) : Pipeline :=
  ⟨p.stages ++ [[("$skip", .i n)]]⟩

def Pipeline.Unwind (p : Pipeline) (path : String) : Pipeline :=
  ⟨p.stages ++ [[("$unwind", .s path)]]⟩

def Pipeline.AddFields (p : Pipeline) (fields : BsonM) : Pipeline :=
  ⟨p.stages ++ [[("$addFields", .doc fields)]]⟩

def Pipeline.Set (p : Pipeline) (fields : BsonM) : Pipeline :=
  ⟨p.stages ++ [[("$set", .doc fields)]]⟩

/-- Stage `Unset`: one field → the bare field string; otherwise → the list of
fields in argument order. -/
def Pipeline.Unset (p : Pipeline) (fields : List String) : Pipeline :=
  if fields.length = 1 then
    ⟨p.stages ++ [[("$unset", .s (fields.headI))]]⟩
  else
    ⟨p.stages ++ [[("$unset", .arr (fields.map .s))]]⟩

def Pipeline.Count (p : Pipeline) (field : String) : Pipeline :=
  ⟨p.stages ++ [[("$count", .s field)]]⟩

def Pipeline.Sample (p : Pipeline) (size : Int) : Pipeline :=
  ⟨p.stages ++ [[("$sample", .doc [("size", .i size)])]]⟩

def Pipeline.Raw (p : Pipeline) (stage : BsonM) : Pipeline :=
  ⟨p.stages ++ [stage]⟩

-- Accumulator helpers (src/spec/pipeline.go).

def Sum (expr : BVal) : BsonM := [("$sum", expr)]
def Avg (expr : BVal) : BsonM := [("$avg", expr)]
def MinAcc (expr : BVal) : BsonM := [("$min", expr)]
def MaxAcc (expr : BVal) : BsonM := [("$max", expr)]
def First (expr : BVal) : BsonM := [("$first", expr)]
def Last (expr : BVal) : BsonM := [("$last", expr)]
def PushAcc (expr : BVal) : BsonM := [("$push", expr)]
def AddToSetAcc (expr : BVal) : BsonM := [("$addToSet", expr)]

/-!
Heap model of update compilation

`Update.ToBsonUpdate` above gives the value produced by compilation.
Go's `bson.M` is a mutable reference type, so side effects need an
explicit heap: `HVal.ref a` is a `bson.M` object stored at address `a`,
`HVal.prim` is any non-map value. The update leaves allocate their
inner maps fresh, exactly as the `bson.M{...}` literals in the source
do, while `setFieldsUpdate.ToBsonUpdate` returns `bson.M{"$set":
u.fields}` — the node's own map, not a copy — so a `setFieldsH` node
carries the address of its field map. The merge loop of
`combinedUpdate.ToBsonUpdate` writes through `existingMap[field] =
val`, i.e. it mutates the heap cell behind the stored reference.
-/

abbrev Addr := Nat

inductive HVal where
  | prim : BVal → HVal
  | ref : Addr → HVal

abbrev HMap := List (String × HVal)

structure Heap where
  cells : List HMap

def Heap.get (h : Heap) (a : Addr) : HMap := h.cells.getD a []

def Heap.set (h : Heap) (a : Addr) (m : HMap) : Heap := ⟨h.cells.set a m⟩

inductive UpdateH where
  | setH : String → HVal → UpdateH
  | incH : String → HVal → UpdateH
  | pushH : String → HVal → UpdateH
  | pullH : String → HVal → UpdateH
  | unsetH : String → UpdateH
  | setFieldsH : Addr → UpdateH
  | addToSetH : String → HVal → UpdateH
  | popH : String → Int → UpdateH
  | mulH : String → HVal → UpdateH
  | minH : String → HVal → UpdateH
  | maxH : String → HVal → UpdateH
  | renameH : String → String → UpdateH
  | combinedH : List UpdateH → UpdateH

/-- A leaf's `bson.M{op: bson.M{field: value}}`: the inner map is a
fresh allocation. -/
def leafH (op field : String) (v : HVal) (h : Heap) : Heap × HMap :=
  (⟨h.cells ++ [[(field, v)]]⟩, [(op, .ref h.cells.length)])

/-- One entry `(k, v)` of a child map folded into `result`: with an
existing `bson.M` under `k` and an incoming `bson.M`, mutate the
existing object in place; otherwise `result[k] = v`. -/
def mergeEntryH (h : Heap) (res : HMap) (k : String) (v : HVal) :
    Heap × HMap :=
  match mget res k, v with
  | some (.ref e), .ref n => (h.set e (mergeFields (h.get e) (h.get n)), res)
  | _, _ => (h, mset res k v)

def mergeMapH (h : Heap) (res : HMap) : HMap → Heap × HMap
  | [] => (h, res)
  | (k, v) :: rest =>
      let p := mergeEntryH h res k v
      mergeMapH p.1 p.2 rest

mutual

/-- Compilation `ToBsonUpdate` with the heap made explicit. -/
def toBsonUpdateH : UpdateH → Heap → Heap × HMap
  | .setH f v, h => leafH "$set" f v h
  | .incH f v, h => leafH "$inc" f v h
  | .pushH f v, h => leafH "$push" f v h
  | .pullH f v, h => leafH "$pull" f v h
  | .unsetH f, h => leafH "$unset" f (.prim (.s "")) h
  | .setFieldsH a, h => (h, [("$set", .ref a)])
  | .addToSetH f v, h => leafH "$addToSet" f v h
  | .popH f pos, h => leafH "$pop" f (.prim (.i pos)) h
  | .mulH f v, h => leafH "$mul" f v h
  | .minH f v, h => leafH "$min" f v h
  | .maxH f v, h => leafH "$max" f v h
  | .renameH o n, h => leafH "$rename" o (.prim (.s n)) h
  | .combinedH us, h => combineLoopH us h []

def combineLoopH : List UpdateH → Heap → HMap → Heap × HMap
  | [], h, res => (h, res)
  | u :: rest, h, res =>
      let p := toBsonUpdateH u h
      let q := mergeMapH p.1 res p.2
      combineLoopH rest q.1 q.2

end

mutual

/-- The update tree contains no `SetFields` node. -/
def noSetFields : UpdateH → Bool
  | .setFieldsH _ => false
  | .combinedH us => noSetFieldsL us
  | _ => true

def noSetFieldsL : List UpdateH → Bool
  | [] => true
  | u :: rest => noSetFields u && noSetFieldsL rest

end

/-!
Theorems
-/

theorem mget_mem {α : Type} (m : List (String × α)) (key : String) (w : α)
    (h : mget m key = some w) : (key, w) ∈ m := by
  induction m with
  | nil => cases h
  | cons hd tl ih =>
    cases hd with
    | mk k0 v0 =>
      rw [mget] at h
      by_cases hk : k0 = key
      · rw [if_pos hk] at h
        cases h
        exact hk ▸ List.mem_cons_self _ _
      · rw [if_neg hk] at h
        exact List.mem_cons_of_mem _ (ih h)

/-- the claim C2: for every non-nil filter `f`, `Not(f)` compiles to a
one-key mapping whose `$nor` key holds the one-element list
`[compile(f)]`, and `Not(nil)` returns `nil`. -/
theorem claim_C2_universal_negation :
    Not none = none ∧
    ∀ (f : Filter) (m : BsonM), f.ToMongo = some m →
      ∃ g : Filter, Not (some f) = some g ∧
        g.ToMongo = some [("$nor", .arr [.doc m])] := by
  refine ⟨rfl, fun f m h => ⟨.notF (some f), rfl, ?_⟩⟩
  simp [Filter.ToMongo, h]

theorem claim_C2_universal_negation_witness :
    ∃ g : Filter, Not (some (Eq "role" (.s "admin"))) = some g ∧
      g.ToMongo = some [("$nor", .arr [.doc [("role", .s "admin")]])] :=
  claim_C2_universal_negation.2 (Eq "role" (.s "admin"))
    [("role", .s "admin")] rfl

/-- the claim C9: `Unset` with exactly one field appends a `$unset`
stage holding that field as a bare string; with two or more fields it
appends a `$unset` stage holding the list of fields in argument
order. -/
theorem claim_C9_unset_shape :
    (∀ (p : Pipeline) (f : String),
      (p.Unset [f]).stages = p.stages ++ [[("$unset", .s f)]]) ∧
    ∀ (p : Pipeline) (fs : List String), 2 ≤ fs.length →
      (p.Unset fs).stages = p.stages ++ [[("$unset", .arr (fs.map .s))]] := by
  constructor
  · intro p f
    simp [Pipeline.Unset, List.headI]
  · intro p fs h
    have : fs.length ≠ 1 := by omega
    simp [Pipeline.Unset, this]

theorem claim_C9_unset_shape_witness :
    (NewPipeline.Unset ["password", "internalField"]).stages
      = [[("$unset", .arr [.s "password", .s "internalField"])]] := by
  have := claim_C9_unset_shape.2 NewPipeline ["password", "internalField"]
    (by decide)
  simpa [NewPipeline] using this

/-- the claim C10: `GroupBy(idExpr, accumulators)` appends a `$group`
stage whose spec starts from `{"_id": idExpr}` and then copies every
accumulator entry into it, so an accumulator entry keyed `"_id"`
silently overwrites `idExpr`, while every other accumulator entry
appears unchanged alongside `"_id"`. -/
theorem claim_C10_groupBy_id_overwrite :
    ∀ (p : Pipeline) (idExpr : BVal) (accs : BsonM),
      (accs.map Prod.fst).Nodup →
      ∃ g : BsonM,
        (p.GroupBy idExpr accs).stages = p.stages ++ [[("$group", .doc g)]] ∧
        (∀ v, mget accs "_id" = some v → mget g "_id" = some v) ∧
        (mget accs "_id" = none → mget g "_id" = some idExpr) ∧
        (∀ k, k ≠ "_id" → mget g k = mget accs k) := by
  intro p idExpr accs hnd
  refine ⟨mergeFields [("_id", idExpr)] accs, rfl, ?_, ?_, ?_⟩
  · intro v hv
    rw [mget_mergeFields _ _ _ hnd, hv]
  · intro hv
    rw [mget_mergeFields _ _ _ hnd, hv]
    simp [mget]
  · intro k hk
    rw [mget_mergeFields _ _ _ hnd]
    cases hv : mget accs k with
    | some w => rfl
    | none => simp [mget, Ne.symm hk]

theorem claim_C10_groupBy_id_overwrite_witness :
    ∃ g : BsonM,
      (NewPipeline.GroupBy (.s "$status")
          [("_id", .s "$other"), ("count", .doc [("$sum", .i 1)])]).stages
        = NewPipeline.stages ++ [[("$group", .doc g)]] ∧
      (∀ v, mget [(("_id" : String), BVal.s "$other"),
          ("count", .doc [("$sum", .i 1)])] "_id" = some v →
        mget g "_id" = some v) ∧
      (mget [(("_id" : String), BVal.s "$other"),
          ("count", .doc [("$sum", .i 1)])] "_id" = none →
        mget g "_id" = some (.s "$status")) ∧
      (∀ k, k ≠ "_id" → mget g k =
        mget [(("_id" : String), BVal.s "$other"),
          ("count", .doc [("$sum", .i 1)])] k) :=
  claim_C10_groupBy_id_overwrite NewPipeline (.s "$status")
    [("_id", .s "$other"), ("count", .doc [("$sum", .i 1)])] (by simp)

theorem flatten_append (sk : Filter → Option (List (Option Filter)))
    (l1 l2 : List (Option Filter)) :
    flatten sk (l1 ++ l2) = flatten sk l1 ++ flatten sk l2 :=
  List.flatMap_append l1 l2 (flat1 sk)

/-- the claim C7: `And`/`Or` drop every nil argument (so
`And(nil, a, nil) = And(a)` and `And(nil, nil) = nil`); `Combine` drops
nil children, returns nil when zero remain and returns the single
remaining node unchanged when exactly one remains. -/
theorem claim_C7_nil_absorption :
    (∀ (pre post : List (Option Filter)),
      And (pre ++ none :: post) = And (pre ++ post)) ∧
    (∀ a : Filter, And [none, some a, none] = And [some a]) ∧
    (∀ a : Filter, (And [none, some a, none]).bind Filter.ToMongo
      = (And [some a]).bind Filter.ToMongo) ∧
    And [none, none] = none ∧
    (∀ (pre post : List (Option Filter)),
      Or (pre ++ none :: post) = Or (pre ++ post)) ∧
    (∀ a : Filter, Or [none, some a, none] = Or [some a]) ∧
    Or [none, none] = none ∧
    (∀ (pre post : List (Option Update)),
      Combine (pre ++ none :: post) = Combine (pre ++ post)) ∧
    (∀ us : List (Option Update), (∀ x ∈ us, x = none) → Combine us = none) ∧
    (∀ u : Update, Combine [some u] = some u) ∧
    (∀ (us : List (Option Update)) (u : Update),
      us.filterMap id = [u] → Combine us = some u) := by
  have hand : ∀ (pre post : List (Option Filter)),
      And (pre ++ none :: post) = And (pre ++ post) := by
    intro pre post
    unfold And
    rw [flatten_append, flatten_append]
    have : flatten Filter.asAnd (none :: post) = flatten Filter.asAnd post := by
      simp [flatten, flat1]
    rw [this]
  have hor : ∀ (pre post : List (Option Filter)),
      Or (pre ++ none :: post) = Or (pre ++ post) := by
    intro pre post
    unfold Or
    rw [flatten_append, flatten_append]
    have : flatten Filter.asOr (none :: post) = flatten Filter.asOr post := by
      simp [flatten, flat1]
    rw [this]
  have hcomb : ∀ (pre post : List (Option Update)),
      Combine (pre ++ none :: post) = Combine (pre ++ post) := by
    intro pre post
    unfold Combine
    rw [List.filterMap_append, List.filterMap_append]
    simp
  have handi : ∀ a : Filter, And [none, some a, none] = And [some a] := by
    intro a
    have h1 := hand [] [some a, none]
    have h2 := hand [some a] []
    simpa using h1.trans h2
  refine ⟨hand, handi, ?_, rfl, hor, ?_, rfl, hcomb, ?_, ?_, ?_⟩
  · intro a
    rw [handi a]
  · intro a
    have h1 := hor [] [some a, none]
    have h2 := hor [some a] []
    simpa using h1.trans h2
  · intro us h
    have hnil : us.filterMap id = [] := by
      rw [List.filterMap_eq_nil_iff]
      intro x hx
      rw [h x hx]; rfl
    unfold Combine
    rw [hnil]
  · intro u; rfl
  · intro us u h
    unfold Combine
    rw [h]

theorem claim_C7_nil_absorption_witness :
    Combine [none, some (Set "a" (.i 1)), none] = some (Set "a" (.i 1)) :=
  claim_C7_nil_absorption.2.2.2.2.2.2.2.2.2.2
    [none, some (Set "a" (.i 1)), none] (Set "a" (.i 1)) rfl

theorem combineLoop_append (l1 l2 : List Update) (res : BsonM) :
    combineLoop (l1 ++ l2) res = combineLoop l2 (combineLoop l1 res) := by
  induction l1 generalizing res with
  | nil => rfl
  | cons u rest ih => rw [List.cons_append, combineLoop, combineLoop, ih]

theorem addEntry_merge (res : BsonM) (k : String) (em nm : BsonM)
    (h : mget res k = some (.doc em)) :
    addEntry res k (.doc nm) = mset res k (.doc (mergeFields em nm)) := by
  simp [addEntry, h, asDoc]

theorem addEntry_not_doc (res : BsonM) (k : String) (v : BVal)
    (h : asDoc v = none) : addEntry res k v = mset res k v := by
  unfold addEntry
  cases hm : mget res k with
  | none => rfl
  | some ex =>
    cases hd : asDoc ex with
    | none => simp [hd]
    | some em => simp [hd, h]

theorem addEntry_existing_not_doc (res : BsonM) (k : String) (v w : BVal)
    (hw : mget res k = some w) (h : asDoc w = none) :
    addEntry res k v = mset res k v := by
  simp [addEntry, hw, h]

/-- the claim C3: `Combine` folds its children's compiled maps
left-to-right; on an operator-key collision where both payloads are
field maps the entries are merged per field with the later argument
winning, distinct operator keys coexist, and a collision where either
payload is not a field map replaces the earlier payload wholesale. -/
theorem claim_C3_combine_merge :
    ((Combine [some (Set "a" (.i 1)), some (Set "b" (.i 2))]).map
        Update.ToBsonUpdate
      = some [("$set", .doc [("a", .i 1), ("b", .i 2)])]) ∧
    ((Combine [some (Set "a" (.i 1)), some (Set "a" (.i 2))]).map
        Update.ToBsonUpdate
      = some [("$set", .doc [("a", .i 2)])]) ∧
    ((Combine [some (Set "a" (.i 1)), some (Inc "b" (.i 1))]).map
        Update.ToBsonUpdate
      = some [("$set", .doc [("a", .i 1)]), ("$inc", .doc [("b", .i 1)])]) ∧
    (∀ (us : List Update) (u : Update),
      Update.ToBsonUpdate (.combinedU (us ++ [u]))
        = mergeMapInto (Update.ToBsonUpdate (.combinedU us)) u.ToBsonUpdate) ∧
    (∀ (res : BsonM) (k : String) (em nm : BsonM),
      mget res k = some (.doc em) →
      addEntry res k (.doc nm) = mset res k (.doc (mergeFields em nm))) ∧
    (∀ (em nm : BsonM) (key : String), (nm.map Prod.fst).Nodup →
      (∀ v, mget nm key = some v → mget (mergeFields em nm) key = some v) ∧
      (mget nm key = none → mget (mergeFields em nm) key = mget em key)) ∧
    (∀ (res : BsonM) (k : String) (v : BVal), asDoc v = none →
      addEntry res k v = mset res k v) ∧
    (∀ (res : BsonM) (k : String) (v w : BVal),
      mget res k = some w → asDoc w = none →
      addEntry res k v = mset res k v) := by
  refine ⟨rfl, rfl, rfl, ?_, addEntry_merge, ?_, addEntry_not_doc,
    addEntry_existing_not_doc⟩
  · intro us u
    show combineLoop (us ++ [u]) [] = _
    rw [combineLoop_append]
    rfl
  · intro em nm key hnd
    constructor
    · intro v hv
      rw [mget_mergeFields _ _ _ hnd, hv]
    · intro hv
      rw [mget_mergeFields _ _ _ hnd, hv]

theorem claim_C3_combine_merge_witness :
    addEntry [("$set", .doc [("a", .i 1)])] "$set" (.doc [("b", .i 2)])
      = mset [("$set", .doc [("a", .i 1)])] "$set"
          (.doc (mergeFields [("a", .i 1)] [("b", .i 2)])) :=
  claim_C3_combine_merge.2.2.2.2.1 [("$set", .doc [("a", .i 1)])] "$set"
    [("a", .i 1)] [("b", .i 2)] rfl

theorem allNormNoAnd_iff (l : List (Option Filter)) :
    allNormNoAnd l = true ↔
      ∀ x ∈ l, ∃ g, x = some g ∧ g.isAnd = false ∧ normB g = true := by
  induction l with
  | nil => simp [allNormNoAnd]
  | cons hd tl ih =>
    cases hd with
    | none => simp [allNormNoAnd]
    | some g =>
      rw [allNormNoAnd]
      constructor
      · intro h x hx
        simp only [Bool.and_eq_true, Bool.not_eq_true'] at h
        rcases List.mem_cons.mp hx with h' | h'
        · exact ⟨g, h', h.1.1, h.1.2⟩
        · exact (ih.mp h.2) x h'
      · intro h
        obtain ⟨g', hg', ha, hn⟩ := h (some g) (List.mem_cons_self _ _)
        cases hg'
        simp only [Bool.and_eq_true, Bool.not_eq_true']
        exact ⟨⟨ha, hn⟩, ih.mpr (fun x hx => h x (List.mem_cons_of_mem _ hx))⟩

theorem allNormNoOr_iff (l : List (Option Filter)) :
    allNormNoOr l = true ↔
      ∀ x ∈ l, ∃ g, x = some g ∧ g.isOr = false ∧ normB g = true := by
  induction l with
  | nil => simp [allNormNoOr]
  | cons hd tl ih =>
    cases hd with
    | none => simp [allNormNoOr]
    | some g =>
      rw [allNormNoOr]
      constructor
      · intro h x hx
        simp only [Bool.and_eq_true, Bool.not_eq_true'] at h
        rcases List.mem_cons.mp hx with h' | h'
        · exact ⟨g, h', h.1.1, h.1.2⟩
        · exact (ih.mp h.2) x h'
      · intro h
        obtain ⟨g', hg', ha, hn⟩ := h (some g) (List.mem_cons_self _ _)
        cases hg'
        simp only [Bool.and_eq_true, Bool.not_eq_true']
        exact ⟨⟨ha, hn⟩, ih.mpr (fun x hx => h x (List.mem_cons_of_mem _ hx))⟩

theorem elems_flatten_and (xs : List (Option Filter))
    (h : ∀ x ∈ xs, onorm x = true) :
    ∀ z ∈ flatten Filter.asAnd xs,
      ∃ g, z = some g ∧ g.isAnd = false ∧ normB g = true := by
  induction xs with
  | nil => intro z hz; simp [flatten] at hz
  | cons x t ih =>
    intro z hz
    rw [show flatten Filter.asAnd (x :: t)
        = flat1 Filter.asAnd x ++ flatten Filter.asAnd t from rfl] at hz
    rcases List.mem_append.mp hz with hz | hz
    · have hx := h x (List.mem_cons_self _ _)
      cases x with
      | none => simp [flat1] at hz
      | some g =>
        cases g with
        | andF l =>
          simp only [flat1, Filter.asAnd] at hz
          have : allNormNoAnd l = true := by
            simp only [onorm, normB, Bool.and_eq_true] at hx
            exact hx.2
          exact (allNormNoAnd_iff l).mp this z hz
        | eqF f v => simp only [flat1, Filter.asAnd, List.mem_singleton] at hz
                     exact ⟨_, hz, rfl, hx⟩
        | opF f o v => simp only [flat1, Filter.asAnd, List.mem_singleton] at hz
                       exact ⟨_, hz, rfl, hx⟩
        | regexF f p o => simp only [flat1, Filter.asAnd, List.mem_singleton] at hz
                          exact ⟨_, hz, rfl, hx⟩
        | elemMatchF f i => simp only [flat1, Filter.asAnd, List.mem_singleton] at hz
                            exact ⟨_, hz, rfl, hx⟩
        | orF l => simp only [flat1, Filter.asAnd, List.mem_singleton] at hz
                   exact ⟨_, hz, rfl, hx⟩
        | notF i => simp only [flat1, Filter.asAnd, List.mem_singleton] at hz
                    exact ⟨_, hz, rfl, hx⟩
    · exact ih (fun x hx => h x (List.mem_cons_of_mem _ hx)) z hz

theorem elems_flatten_or (xs : List (Option Filter))
    (h : ∀ x ∈ xs, onorm x = true) :
    ∀ z ∈ flatten Filter.asOr xs,
      ∃ g, z = some g ∧ g.isOr = false ∧ normB g = true := by
  induction xs with
  | nil => intro z hz; simp [flatten] at hz
  | cons x t ih =>
    intro z hz
    rw [show flatten Filter.asOr (x :: t)
        = flat1 Filter.asOr x ++ flatten Filter.asOr t from rfl] at hz
    rcases List.mem_append.mp hz with hz | hz
    · have hx := h x (List.mem_cons_self _ _)
      cases x with
      | none => simp [flat1] at hz
      | some g =>
        cases g with
        | orF l =>
          simp only [flat1, Filter.asOr] at hz
          have : allNormNoOr l = true := by
            simp only [onorm, normB, Bool.and_eq_true] at hx
            exact hx.2
          exact (allNormNoOr_iff l).mp this z hz
        | eqF f v => simp only [flat1, Filter.asOr, List.mem_singleton] at hz
                     exact ⟨_, hz, rfl, hx⟩
        | opF f o v => simp only [flat1, Filter.asOr, List.mem_singleton] at hz
                       exact ⟨_, hz, rfl, hx⟩
        | regexF f p o => simp only [flat1, Filter.asOr, List.mem_singleton] at hz
                          exact ⟨_, hz, rfl, hx⟩
        | elemMatchF f i => simp only [flat1, Filter.asOr, List.mem_singleton] at hz
                            exact ⟨_, hz, rfl, hx⟩
        | andF l => simp only [flat1, Filter.asOr, List.mem_singleton] at hz
                    exact ⟨_, hz, rfl, hx⟩
        | notF i => simp only [flat1, Filter.asOr, List.mem_singleton] at hz
                    exact ⟨_, hz, rfl, hx⟩
    · exact ih (fun x hx => h x (List.mem_cons_of_mem _ hx)) z hz

/-- the claim C5: for every (reachable, hence normalized) non-nil
filter `n`, `And(n)` and `Or(n)` return `n` itself, so their compiled
forms agree with `n`'s. -/
theorem claim_C5_singleton_collapse :
    ∀ n : Filter, normB n = true →
      And [some n] = some n ∧ Or [some n] = some n ∧
      (And [some n]).bind Filter.ToMongo = n.ToMongo ∧
      (Or [some n]).bind Filter.ToMongo = n.ToMongo := by
  intro n hn
  have hand : And [some n] = some n := by
    cases n with
    | andF l =>
      simp only [normB, Bool.and_eq_true, decide_eq_true_eq] at hn
      obtain ⟨hlen, -⟩ := hn
      show build Filter.andF (flatten Filter.asAnd [some (Filter.andF l)])
        = some (Filter.andF l)
      have hfl : flatten Filter.asAnd [some (Filter.andF l)] = l := by
        simp [flatten, flat1, Filter.asAnd]
      rw [hfl]
      match l, hlen with
      | a :: b :: t, _ => rfl
    | eqF f v => rfl
    | opF f o v => rfl
    | regexF f p o => rfl
    | elemMatchF f i => rfl
    | orF l => rfl
    | notF i => rfl
  have hor : Or [some n] = some n := by
    cases n with
    | orF l =>
      simp only [normB, Bool.and_eq_true, decide_eq_true_eq] at hn
      obtain ⟨hlen, -⟩ := hn
      show build Filter.orF (flatten Filter.asOr [some (Filter.orF l)])
        = some (Filter.orF l)
      have hfl : flatten Filter.asOr [some (Filter.orF l)] = l := by
        simp [flatten, flat1, Filter.asOr]
      rw [hfl]
      match l, hlen with
      | a :: b :: t, _ => rfl
    | eqF f v => rfl
    | opF f o v => rfl
    | regexF f p o => rfl
    | elemMatchF f i => rfl
    | andF l => rfl
    | notF i => rfl
  exact ⟨hand, hor, by rw [hand]; rfl, by rw [hor]; rfl⟩

theorem claim_C5_singleton_collapse_witness :
    And [some (Eq "status" (.s "active"))] = some (Eq "status" (.s "active")) :=
  (claim_C5_singleton_collapse (Eq "status" (.s "active")) rfl).1

theorem flat1_And (xs : List (Option Filter))
    (h : ∀ x ∈ xs, onorm x = true) :
    flat1 Filter.asAnd (And xs) = flatten Filter.asAnd xs := by
  have helems := elems_flatten_and xs h
  unfold And
  cases hF : flatten Filter.asAnd xs with
  | nil => rfl
  | cons a t =>
    cases t with
    | nil =>
      obtain ⟨g, rfl, hga, -⟩ := helems a (by rw [hF]; exact List.mem_cons_self _ _)
      show flat1 Filter.asAnd (some g) = [some g]
      cases g with
      | andF l => simp [Filter.isAnd] at hga
      | eqF f v => rfl
      | opF f o v => rfl
      | regexF f p o => rfl
      | elemMatchF f i => rfl
      | orF l => rfl
      | notF i => rfl
    | cons b t' => rfl

theorem flat1_Or (xs : List (Option Filter))
    (h : ∀ x ∈ xs, onorm x = true) :
    flat1 Filter.asOr (Or xs) = flatten Filter.asOr xs := by
  have helems := elems_flatten_or xs h
  unfold Or
  cases hF : flatten Filter.asOr xs with
  | nil => rfl
  | cons a t =>
    cases t with
    | nil =>
      obtain ⟨g, rfl, hga, -⟩ := helems a (by rw [hF]; exact List.mem_cons_self _ _)
      show flat1 Filter.asOr (some g) = [some g]
      cases g with
      | orF l => simp [Filter.isOr] at hga
      | eqF f v => rfl
      | opF f o v => rfl
      | regexF f p o => rfl
      | elemMatchF f i => rfl
      | andF l => rfl
      | notF i => rfl
    | cons b t' => rfl

/-- the claim C4: for all (reachable, hence normalized) nilable filters
`a`, `b`, `c`, `And(And(a,b), c)` equals `And(a,b,c)` — nested
same-kind children are spliced at construction — and symmetrically for
`Or`; hence the compiled forms agree. -/
theorem claim_C4_flattening :
    ∀ a b c : Option Filter,
      onorm a = true → onorm b = true → onorm c = true →
      And [And [a, b], c] = And [a, b, c] ∧
      Or [Or [a, b], c] = Or [a, b, c] ∧
      (And [And [a, b], c]).bind Filter.ToMongo
        = (And [a, b, c]).bind Filter.ToMongo ∧
      (Or [Or [a, b], c]).bind Filter.ToMongo
        = (Or [a, b, c]).bind Filter.ToMongo := by
  intro a b c ha hb hc
  have hab : ∀ x ∈ [a, b], onorm x = true := by
    intro x hx
    rcases List.mem_cons.mp hx with h | h
    · exact h ▸ ha
    · rcases List.mem_cons.mp h with h' | h'
      · exact h' ▸ hb
      · simp at h'
  have hand : And [And [a, b], c] = And [a, b, c] := by
    unfold And
    congr 1
    show flat1 Filter.asAnd (And [a, b]) ++ (flat1 Filter.asAnd c ++ [])
      = flat1 Filter.asAnd a ++ (flat1 Filter.asAnd b ++ (flat1 Filter.asAnd c ++ []))
    rw [flat1_And [a, b] hab]
    show (flat1 Filter.asAnd a ++ (flat1 Filter.asAnd b ++ [])) ++ _ = _
    simp [List.append_assoc]
  have hor : Or [Or [a, b], c] = Or [a, b, c] := by
    unfold Or
    congr 1
    show flat1 Filter.asOr (Or [a, b]) ++ (flat1 Filter.asOr c ++ [])
      = flat1 Filter.asOr a ++ (flat1 Filter.asOr b ++ (flat1 Filter.asOr c ++ []))
    rw [flat1_Or [a, b] hab]
    show (flat1 Filter.asOr a ++ (flat1 Filter.asOr b ++ [])) ++ _ = _
    simp [List.append_assoc]
  exact ⟨hand, hor, by rw [hand], by rw [hor]⟩

theorem claim_C4_flattening_witness :
    And [And [some (Eq "a" (.i 1)), some (Eq "b" (.i 2))], some (Eq "c" (.i 3))]
      = And [some (Eq "a" (.i 1)), some (Eq "b" (.i 2)), some (Eq "c" (.i 3))] :=
  (claim_C4_flattening (some (Eq "a" (.i 1))) (some (Eq "b" (.i 2)))
    (some (Eq "c" (.i 3))) rfl rfl rfl).1

theorem and_preserves_norm (xs : List (Option Filter))
    (h : ∀ x ∈ xs, onorm x = true) : onorm (And xs) = true := by
  have helems := elems_flatten_and xs h
  unfold And
  cases hF : flatten Filter.asAnd xs with
  | nil => rfl
  | cons a t =>
    cases t with
    | nil =>
      obtain ⟨g, rfl, -, hgn⟩ := helems a (by rw [hF]; exact List.mem_cons_self _ _)
      exact hgn
    | cons b t' =>
      show normB (.andF (a :: b :: t')) = true
      simp only [normB, Bool.and_eq_true, decide_eq_true_eq]
      refine ⟨by simp, ?_⟩
      rw [allNormNoAnd_iff]
      intro z hz
      exact helems z (by rw [hF]; exact hz)

theorem or_preserves_norm (xs : List (Option Filter))
    (h : ∀ x ∈ xs, onorm x = true) : onorm (Or xs) = true := by
  have helems := elems_flatten_or xs h
  unfold Or
  cases hF : flatten Filter.asOr xs with
  | nil => rfl
  | cons a t =>
    cases t with
    | nil =>
      obtain ⟨g, rfl, -, hgn⟩ := helems a (by rw [hF]; exact List.mem_cons_self _ _)
      exact hgn
    | cons b t' =>
      show normB (.orF (a :: b :: t')) = true
      simp only [normB, Bool.and_eq_true, decide_eq_true_eq]
      refine ⟨by simp, ?_⟩
      rw [allNormNoOr_iff]
      intro z hz
      exact helems z (by rw [hF]; exact hz)

/-- the claim C6: every public filter constructor preserves the
normalization invariant `normB` (And/Or containers hold at least two
children, none nil, none a same-kind container, all recursively
normalized; Not never holds a nil inner filter), so every reachable
node graph satisfies it inductively. -/
theorem claim_C6_normalization_invariant :
    (∀ f v, normB (Eq f v) = true) ∧
    (∀ f v, normB (Ne f v) = true) ∧
    (∀ f v, normB (Gt f v) = true) ∧
    (∀ f v, normB (Gte f v) = true) ∧
    (∀ f v, normB (Lt f v) = true) ∧
    (∀ f v, normB (Lte f v) = true) ∧
    (∀ f v, normB (In f v) = true) ∧
    (∀ f v, normB (NotIn f v) = true) ∧
    (∀ f v, normB (Nin f v) = true) ∧
    (∀ f b, normB (Exists f b) = true) ∧
    (∀ f v, normB (All f v) = true) ∧
    (∀ f n, normB (Size f n) = true) ∧
    (∀ f p o, normB (Regex f p o) = true) ∧
    (∀ fld x, onorm x = true → normB (ElemMatch fld x) = true) ∧
    (∀ x, onorm x = true → onorm (Not x) = true) ∧
    (∀ xs, (∀ x ∈ xs, onorm x = true) → onorm (And xs) = true) ∧
    (∀ xs, (∀ x ∈ xs, onorm x = true) → onorm (Or xs) = true) ∧
    (∀ fld lo hi, onorm (Between fld lo hi) = true) := by
  refine ⟨fun _ _ => rfl, fun _ _ => rfl, fun _ _ => rfl, fun _ _ => rfl,
    fun _ _ => rfl, fun _ _ => rfl, fun _ _ => rfl, fun _ _ => rfl,
    fun _ _ => rfl, fun _ _ => rfl, fun _ _ => rfl, fun _ _ => rfl,
    fun _ _ _ => rfl, ?_, ?_, and_preserves_norm, or_preserves_norm,
    fun _ _ _ => rfl⟩
  · intro fld x hx
    cases x with
    | none => rfl
    | some g => exact hx
  · intro x hx
    cases x with
    | none => rfl
    | some g => exact hx

theorem claim_C6_normalization_invariant_witness :
    onorm (And [some (Eq "a" (.i 1)), none,
      some (Filter.andF [some (Eq "b" (.i 2)), some (Eq "c" (.i 3))])]) = true :=
  claim_C6_normalization_invariant.2.2.2.2.2.2.2.2.2.2.2.2.2.2.2.1
    [some (Eq "a" (.i 1)), none,
      some (Filter.andF [some (Eq "b" (.i 2)), some (Eq "c" (.i 3))])]
    (by decide)

theorem compileParts_isSome (l : List (Option Filter))
    (h : ∀ g : Filter, some g ∈ l → (Filter.ToMongo g).isSome) :
    (compileParts l).isSome := by
  induction l with
  | nil => rfl
  | cons x t ih =>
    cases x with
    | none =>
      rw [compileParts]
      exact ih (fun g hg => h g (List.mem_cons_of_mem _ hg))
    | some f =>
      rw [compileParts]
      have hf := h f (List.mem_cons_self _ _)
      have ht := ih (fun g hg => h g (List.mem_cons_of_mem _ hg))
      cases hm : Filter.ToMongo f with
      | none => rw [hm] at hf; cases hf
      | some m =>
        cases hp : compileParts t with
        | none => rw [hp] at ht; cases ht
        | some ps => simp [hm, hp]

theorem toMongo_isSome_of_norm :
    ∀ f : Filter, normB f = true → (Filter.ToMongo f).isSome := by
  have key : ∀ (N : Nat) (f : Filter), sizeOf f ≤ N → normB f = true →
      (Filter.ToMongo f).isSome := by
    intro N
    induction N with
    | zero =>
      intro f hle
      exfalso
      cases f <;> simp at hle
    | succ N ih =>
      intro f hle hnorm
      cases f with
      | eqF fld v => rfl
      | opF fld o v => rfl
      | regexF fld p o =>
        rw [Filter.ToMongo]
        by_cases ho : o = "" <;> simp [ho]
      | elemMatchF fld inner =>
        cases inner with
        | none => rfl
        | some g =>
          have hg : normB g = true := hnorm
          have h1 : sizeOf g < sizeOf (Filter.elemMatchF fld (some g)) := by
            simp
            omega
          have := ih g (by omega) hg
          cases hm : Filter.ToMongo g with
          | none => rw [hm] at this; cases this
          | some m => simp [Filter.ToMongo, hm]
      | notF inner =>
        cases inner with
        | none => cases hnorm
        | some g =>
          have hg : normB g = true := hnorm
          have h1 : sizeOf g < sizeOf (Filter.notF (some g)) := by
            simp
            omega
          have := ih g (by omega) hg
          cases hm : Filter.ToMongo g with
          | none => rw [hm] at this; cases this
          | some m => simp [Filter.ToMongo, hm]
      | andF l =>
        simp only [normB, Bool.and_eq_true] at hnorm
        have helems := (allNormNoAnd_iff l).mp hnorm.2
        have hparts : (compileParts l).isSome := by
          apply compileParts_isSome
          intro g hg
          obtain ⟨gg, heq, -, hn⟩ := helems (some g) hg
          injection heq with heq2
          subst heq2
          have hszl : sizeOf (some g) < sizeOf l := List.sizeOf_lt_of_mem hg
          have h1 : sizeOf (some g) = 1 + sizeOf g := by simp
          have h2 : sizeOf (Filter.andF l) = 1 + sizeOf l := by simp
          exact ih g (by omega) hn
        cases hp : compileParts l with
        | none => rw [hp] at hparts; cases hparts
        | some ps => simp [Filter.ToMongo, hp]
      | orF l =>
        simp only [normB, Bool.and_eq_true] at hnorm
        have helems := (allNormNoOr_iff l).mp hnorm.2
        have hparts : (compileParts l).isSome := by
          apply compileParts_isSome
          intro g hg
          obtain ⟨gg, heq, -, hn⟩ := helems (some g) hg
          injection heq with heq2
          subst heq2
          have hszl : sizeOf (some g) < sizeOf l := List.sizeOf_lt_of_mem hg
          have h1 : sizeOf (some g) = 1 + sizeOf g := by simp
          have h2 : sizeOf (Filter.orF l) = 1 + sizeOf l := by simp
          exact ih g (by omega) hn
        cases hp : compileParts l with
        | none => rw [hp] at hparts; cases hparts
        | some ps => simp [Filter.ToMongo, hp]
  exact fun f => key (sizeOf f) f le_rfl

/-- the claim C8: compilation is total over the reachable input domain
— every normalized (constructor-built) filter compiles without panic,
`ElemMatch` with a nil inner filter compiles to an unconstrained
element-match, `Match(nil)` appends no stage, and `Not` never builds a
container with a nil inner node. -/
theorem claim_C8_totality :
    (∀ f : Filter, normB f = true → (Filter.ToMongo f).isSome) ∧
    (∀ fld : String, (ElemMatch fld none).ToMongo
      = some [(fld, .doc [("$elemMatch", .doc [])])]) ∧
    (∀ p : Pipeline, p.Match none = some p) ∧
    (∀ x : Option Filter, Not x ≠ some (.notF none)) ∧
    (∀ x : Option Filter, onorm x = true →
      ∀ p : Pipeline, (p.Match x).isSome) := by
  refine ⟨toMongo_isSome_of_norm, fun _ => rfl, fun _ => rfl, ?_, ?_⟩
  · intro x
    cases x with
    | none => simp [Not]
    | some f =>
      simp only [Not]
      intro h
      cases h
  · intro x hx p
    cases x with
    | none => rfl
    | some f =>
      rw [Pipeline.Match]
      have := toMongo_isSome_of_norm f hx
      cases hm : Filter.ToMongo f with
      | none => rw [hm] at this; cases this
      | some m => simp [hm]

theorem claim_C8_totality_witness :
    (Filter.ToMongo (Filter.notF (some (Eq "a" (.i 1))))).isSome :=
  claim_C8_totality.1 (Filter.notF (some (Eq "a" (.i 1)))) rfl

/-- All map references occurring at the top level of `m` point at or
beyond address `n` (they are fresh with respect to a heap of length
`n`). -/
def GoodMap (n : Nat) (m : HMap) : Prop :=
  ∀ p ∈ m, ∀ x, p.2 = HVal.ref x → n ≤ x

theorem GoodMap_mono (n n' : Nat) (m : HMap) (hle : n ≤ n')
    (h : GoodMap n' m) : GoodMap n m :=
  fun p hp x hx => le_trans hle (h p hp x hx)

theorem GoodMap_nil (n : Nat) : GoodMap n [] := by
  intro p hp
  cases hp

theorem GoodMap_mset (n : Nat) (res : HMap) (k : String) (v : HVal)
    (hres : GoodMap n res) (hv : ∀ x, v = HVal.ref x → n ≤ x) :
    GoodMap n (mset res k v) := by
  intro p hp x hx
  rcases mem_mset res k v p hp with h | h
  · exact hres p h x hx
  · subst h
    exact hv x hx

theorem hget_alloc (h : Heap) (m : HMap) (a : Nat)
    (ha : a < h.cells.length) :
    (Heap.mk (h.cells ++ [m])).get a = h.get a := by
  simp only [Heap.get]
  exact List.getD_append _ _ _ _ ha

theorem hget_set_ne (h : Heap) (e : Nat) (m : HMap) (a : Nat)
    (ha : a ≠ e) : (h.set e m).get a = h.get a := by
  simp only [Heap.get, Heap.set, List.getD_eq_getElem?_getD]
  rw [List.getElem?_set_ne (Ne.symm ha)]

theorem mergeEntryH_spec (h : Heap) (res : HMap) (k : String) (v : HVal)
    (n : Nat) (hres : GoodMap n res) (hv : ∀ x, v = HVal.ref x → n ≤ x) :
    (mergeEntryH h res k v).1.cells.length = h.cells.length ∧
    (∀ a, a < n → (mergeEntryH h res k v).1.get a = h.get a) ∧
    GoodMap n (mergeEntryH h res k v).2 := by
  unfold mergeEntryH
  cases hm : mget res k with
  | none =>
    exact ⟨rfl, fun a _ => rfl, GoodMap_mset n res k v hres hv⟩
  | some w =>
    cases w with
    | prim b =>
      exact ⟨rfl, fun a _ => rfl, GoodMap_mset n res k v hres hv⟩
    | ref e =>
      cases v with
      | prim b =>
        exact ⟨rfl, fun a _ => rfl, GoodMap_mset n res k (.prim b) hres
          (fun x hx => by cases hx)⟩
      | ref x =>
        have he : n ≤ e := hres (k, .ref e) (mget_mem res k _ hm) e rfl
        refine ⟨?_, ?_, hres⟩
        · simp [Heap.set]
        · intro a ha
          exact hget_set_ne h e _ a (by omega)

theorem mergeMapH_spec (entries : List (String × HVal)) :
    ∀ (h : Heap) (res : HMap) (n : Nat), GoodMap n res → GoodMap n entries →
    (mergeMapH h res entries).1.cells.length = h.cells.length ∧
    (∀ a, a < n → (mergeMapH h res entries).1.get a = h.get a) ∧
    GoodMap n (mergeMapH h res entries).2 := by
  induction entries with
  | nil =>
    intro h res n hres _
    exact ⟨rfl, fun a _ => rfl, hres⟩
  | cons p rest ih =>
    intro h res n hres hentries
    cases p with
    | mk k v =>
      have hv : ∀ x, v = HVal.ref x → n ≤ x :=
        fun x hx => hentries (k, v) (List.mem_cons_self _ _) x hx
      have hrest : GoodMap n rest :=
        fun q hq x hx => hentries q (List.mem_cons_of_mem _ hq) x hx
      obtain ⟨hlen1, hfr1, hres1⟩ := mergeEntryH_spec h res k v n hres hv
      obtain ⟨hlen2, hfr2, hres2⟩ :=
        ih (mergeEntryH h res k v).1 (mergeEntryH h res k v).2 n hres1 hrest
      rw [mergeMapH]
      exact ⟨hlen2.trans hlen1,
        fun a ha => (hfr2 a ha).trans (hfr1 a ha), hres2⟩

/-- The frame/freshness property of compiling one update tree: the
heap only grows, pre-existing cells are untouched, and every reference
in the produced map is fresh. -/
def FrameSpec (u : UpdateH) : Prop :=
  ∀ h : Heap, noSetFields u = true →
    h.cells.length ≤ (toBsonUpdateH u h).1.cells.length ∧
    (∀ a, a < h.cells.length → (toBsonUpdateH u h).1.get a = h.get a) ∧
    GoodMap h.cells.length (toBsonUpdateH u h).2

theorem leafH_spec (op f : String) (v : HVal) (h : Heap) :
    h.cells.length ≤ (leafH op f v h).1.cells.length ∧
    (∀ a, a < h.cells.length → (leafH op f v h).1.get a = h.get a) ∧
    GoodMap h.cells.length (leafH op f v h).2 := by
  refine ⟨by simp [leafH], ?_, ?_⟩
  · intro a ha
    exact hget_alloc h _ a ha
  · intro p hp x hx
    rcases List.mem_singleton.mp hp with rfl
    cases hx
    exact le_rfl

theorem noSetFieldsL_mem (us : List UpdateH) (h : noSetFieldsL us = true) :
    ∀ u ∈ us, noSetFields u = true := by
  induction us with
  | nil => intro u hu; cases hu
  | cons v rest ih =>
    rw [noSetFieldsL, Bool.and_eq_true] at h
    intro u hu
    rcases List.mem_cons.mp hu with h' | h'
    · exact h' ▸ h.1
    · exact ih h.2 u h'

theorem combineLoopH_spec (us : List UpdateH) :
    ∀ (h : Heap) (res : HMap) (n : Nat),
    (∀ u ∈ us, FrameSpec u ∧ noSetFields u = true) →
    n ≤ h.cells.length → GoodMap n res →
    h.cells.length ≤ (combineLoopH us h res).1.cells.length ∧
    (∀ a, a < n → (combineLoopH us h res).1.get a = h.get a) ∧
    GoodMap n (combineLoopH us h res).2 := by
  induction us with
  | nil =>
    intro h res n _ _ hres
    exact ⟨le_rfl, fun a _ => rfl, hres⟩
  | cons u rest ih =>
    intro h res n hall hn hres
    obtain ⟨hu, hu0⟩ := hall u (List.mem_cons_self _ _)
    obtain ⟨hlen1, hfr1, hmap1⟩ := hu h hu0
    have hmap1' : GoodMap n (toBsonUpdateH u h).2 :=
      GoodMap_mono n h.cells.length _ hn hmap1
    obtain ⟨hlen2, hfr2, hres2⟩ := mergeMapH_spec (toBsonUpdateH u h).2
      (toBsonUpdateH u h).1 res n hres hmap1'
    obtain ⟨hlen3, hfr3, hres3⟩ := ih
      (mergeMapH (toBsonUpdateH u h).1 res (toBsonUpdateH u h).2).1
      (mergeMapH (toBsonUpdateH u h).1 res (toBsonUpdateH u h).2).2 n
      (fun v hv => hall v (List.mem_cons_of_mem _ hv))
      (by omega) hres2
    rw [combineLoopH]
    refine ⟨by omega, ?_, hres3⟩
    intro a ha
    have h1 := hfr1 a (by omega)
    have h2 := hfr2 a ha
    have h3 := hfr3 a ha
    rw [h3, h2, h1]

theorem frameSpec_all : ∀ u : UpdateH, FrameSpec u := by
  have key : ∀ (N : Nat) (u : UpdateH), sizeOf u ≤ N → FrameSpec u := by
    intro N
    induction N with
    | zero =>
      intro u hle
      exfalso
      cases u <;> simp at hle
    | succ N ih =>
      intro u hle
      cases u with
      | setH f v => exact fun h _ => leafH_spec "$set" f v h
      | incH f v => exact fun h _ => leafH_spec "$inc" f v h
      | pushH f v => exact fun h _ => leafH_spec "$push" f v h
      | pullH f v => exact fun h _ => leafH_spec "$pull" f v h
      | unsetH f => exact fun h _ => leafH_spec "$unset" f _ h
      | addToSetH f v => exact fun h _ => leafH_spec "$addToSet" f v h
      | popH f pos => exact fun h _ => leafH_spec "$pop" f _ h
      | mulH f v => exact fun h _ => leafH_spec "$mul" f v h
      | minH f v => exact fun h _ => leafH_spec "$min" f v h
      | maxH f v => exact fun h _ => leafH_spec "$max" f v h
      | renameH o nw => exact fun h _ => leafH_spec "$rename" o _ h
      | setFieldsH a =>
        intro h hns
        cases hns
      | combinedH us =>
        intro h hns
        have hl : noSetFieldsL us = true := hns
        have hmem := noSetFieldsL_mem us hl
        have hall : ∀ v ∈ us, FrameSpec v ∧ noSetFields v = true := by
          intro v hv
          have hszl : sizeOf v < sizeOf us := List.sizeOf_lt_of_mem hv
          have h2 : sizeOf (UpdateH.combinedH us) = 1 + sizeOf us := by simp
          exact ⟨ih v (by omega), hmem v hv⟩
        exact combineLoopH_spec us h [] h.cells.length hall le_rfl
          (GoodMap_nil _)
  exact fun u => key (sizeOf u) u le_rfl

/-- the claim C1 (counterexample): compiling the combined update
`Combine(SetFields(m), Set("a", 1))` mutates the map `m` held by the
`SetFields` node itself (heap cell 0), contradicting "compiling a
Combine containing a SetFields child must not change any node or
builder". -/
theorem claim_C1_counterexample :
    (toBsonUpdateH (.combinedH [.setFieldsH 0, .setH "a" (.prim (.i 1))])
        ⟨[[("b", .prim (.i 0))]]⟩).1.get 0
      ≠ (⟨[[("b", .prim (.i 0))]]⟩ : Heap).get 0 :=
  fun hcontra => absurd (congrArg List.length hcontra) (by decide)

/-- the claim C1 (amended): compiling an update tree that contains no
SetFields node never modifies a pre-existing map object — it only
allocates fresh ones, and every map reference in its output is fresh
(a SetFields node's field map, by contrast, is aliased into the output
and can be mutated by a later same-key merge, as the counterexample
shows). -/
theorem claim_C1_compile_frame :
    ∀ u : UpdateH, noSetFields u = true → ∀ h : Heap,
      (∀ a, a < h.cells.length → (toBsonUpdateH u h).1.get a = h.get a) ∧
      GoodMap h.cells.length (toBsonUpdateH u h).2 := by
  intro u hns h
  obtain ⟨-, hfr, hmap⟩ := frameSpec_all u h hns
  exact ⟨hfr, hmap⟩

theorem claim_C1_compile_frame_witness :
    (toBsonUpdateH (.combinedH [.setH "b" (.prim (.i 0)), .setH "a" (.prim (.i 1))])
        ⟨[[("x", .prim (.i 7))]]⟩).1.get 0
      = (⟨[[("x", .prim (.i 7))]]⟩ : Heap).get 0 :=
  (claim_C1_compile_frame
    (.combinedH [.setH "b" (.prim (.i 0)), .setH "a" (.prim (.i 1))]) rfl
    ⟨[[("x", .prim (.i 7))]]⟩).1 0 (by decide)

end Mongox
